import Mathlib

/-!
Verification of the generalized partial-trace engine of the toqito
repository, as described by its specification.  The repository's own
sources only ship the regression-test oracle for the engine
(`src/tests/test_channels/test_partial_trace.py`); the engine itself is
modelled here from the specification's component design (sections 4.1 to
4.6): dimension-list normalization, subsystem-index normalization, the
mixed-radix index algebra, the dense summation path, the symbolic path and
the public entry point.
-/

/-- Modelled from the spec (section 4.3, multi-index factorization): map a
flat index `p` to its per-subsystem digit tuple in mixed radix, subsystem 0
being the most significant digit. -/
def unflatten : List ℕ → ℕ → List ℕ
  | [], _ => []
  | _ :: ds, p => p / ds.prod :: unflatten ds (p % ds.prod)

/-- Modelled from the spec (section 4.3): the inverse map from a digit
tuple back to a flat index. -/
def flatten : List ℕ → List ℕ → ℕ
  | _ :: ds, x :: xs => x * ds.prod + flatten ds xs
  | _, _ => 0

/-- Modelled from the spec (section 4.4): interleave the traced digits
`ts` and the retained digits `rs` back into a full digit tuple, each digit
at its original subsystem position; `k` counts the remaining positions and
`i` is the current position. -/
def interleave (sys : List ℕ) : ℕ → ℕ → List ℕ → List ℕ → List ℕ
  | 0, _, _, _ => []
  | k + 1, i, ts, rs =>
    if i ∈ sys then ts.headD 0 :: interleave sys k (i + 1) ts.tail rs
    else rs.headD 0 :: interleave sys k (i + 1) ts rs.tail

/-- Modelled from the spec (sections 3 and 4.4): the dimensions of the
subsystems being traced out, in subsystem order, positions counted from
`i`. -/
def tracedDimsFrom (sys : List ℕ) : ℕ → List ℕ → List ℕ
  | _, [] => []
  | i, d :: ds =>
    if i ∈ sys then d :: tracedDimsFrom sys (i + 1) ds
    else tracedDimsFrom sys (i + 1) ds

/-- Modelled from the spec (sections 3 and 4.4): the dimensions of the
retained subsystems, in subsystem order, positions counted from `i`. -/
def keptDimsFrom (sys : List ℕ) : ℕ → List ℕ → List ℕ
  | _, [] => []
  | i, d :: ds =>
    if i ∈ sys then keptDimsFrom sys (i + 1) ds
    else d :: keptDimsFrom sys (i + 1) ds

/-- Dimensions of the traced-out subsystems of `dims`. -/
def tracedDims (dims sys : List ℕ) : List ℕ := tracedDimsFrom sys 0 dims

/-- Dimensions of the retained subsystems of `dims`. -/
def keptDims (dims sys : List ℕ) : List ℕ := keptDimsFrom sys 0 dims

/-- Modelled from the spec (section 4.4, dense path): the output entry at
retained pair `(r, c)` is the sum, over every assignment `t` of digits to
the traced-out subsystems, of the input entry at the flat indices obtained
by interleaving the traced digits into the digits of `r` and of `c` at
their original subsystem positions. -/
def ptEntry (X : ℕ → ℕ → ℤ) (dims sys : List ℕ) (r c : ℕ) : ℤ :=
  ∑ t ∈ Finset.range (tracedDims dims sys).prod,
    X (flatten dims
        (interleave sys dims.length 0 (unflatten (tracedDims dims sys) t)
          (unflatten (keptDims dims sys) r)))
      (flatten dims
        (interleave sys dims.length 0 (unflatten (tracedDims dims sys) t)
          (unflatten (keptDims dims sys) c)))

/-- Entry of a row-major concrete matrix, reading off the end as zero. -/
def entryOf (rows : List (List ℤ)) (i j : ℕ) : ℤ := (rows.getD i []).getD j 0

/-- Modelled from the spec (section 4.4): the dense partial trace, the
`m × m` matrix of `ptEntry` values where `m` is the product of the
retained dimensions. -/
def densePT (rows : List (List ℤ)) (dims sys : List ℕ) : List (List ℤ) :=
  (List.range (keptDims dims sys).prod).map fun r =>
    (List.range (keptDims dims sys).prod).map fun c =>
      ptEntry (entryOf rows) dims sys r c

/-- Modelled from the spec (section 7): the error taxonomy. -/
inductive PTError
  | shapeError
  | dimensionError
  | invalidArgument
  deriving DecidableEq

/-- Modelled from the spec (section 4.1): the caller-supplied dimension
argument is absent, a single integer meaning this many equal subsystems,
or an explicit list. -/
inductive DimsArg
  | absent
  | single (s : ℕ)
  | explicit (l : List ℕ)
  deriving DecidableEq

/-- Modelled from the spec (section 4.2): the caller-supplied subsystem
argument is a single integer, a collection of integers, or some other
value (for example a text string) which must be rejected. -/
inductive SysArg
  | int (i : ℤ)
  | list (l : List ℤ)
  | other
  deriving DecidableEq

/-- Modelled from the spec (section 4.1, dimension-list normalization):
absent means two equal subsystems of dimension the square root of `n`
(failing when `n` is not a perfect square); a bare integer `s` means `s`
subsystems of deducible equal size; an explicit list is used verbatim and
fails when its product is not `n`. -/
def normalizeDims (n : ℕ) : DimsArg → Except PTError (List ℕ)
  | .absent =>
    match (List.range (n + 1)).find? fun r => r * r == n with
    | some r => .ok [r, r]
    | none => .error .dimensionError
  | .single s =>
    match (List.range (n + 1)).find? fun r => r ^ s == n with
    | some r => .ok (List.replicate s r)
    | none => .error .dimensionError
  | .explicit l => if l.prod = n then .ok l else .error .dimensionError

/-- Modelled from the spec (section 4.2, subsystem index normalization):
a single integer or a collection of integers in `[0, k)` is accepted and
deduplicated; a negative or out-of-range integer, or a value that is
neither an integer nor a collection of integers, fails with
`InvalidArgument`. -/
def normalizeSys (k : ℕ) : SysArg → Except PTError (List ℕ)
  | .int i =>
    if 0 ≤ i ∧ i < (k : ℤ) then .ok [i.toNat] else .error .invalidArgument
  | .list l =>
    if l.all fun e => decide (0 ≤ e ∧ e < (k : ℤ)) then
      .ok ((l.map Int.toNat).dedup)
    else .error .invalidArgument
  | .other => .error .invalidArgument

/-- Modelled from the spec (section 4.5): the scalar symbolic expressions
the symbolic path builds with the host layer's addition and indexing
primitives over the unknown matrix variable. -/
inductive ScalarExpr
  | index (i j : ℕ)
  | zero
  | add (a b : ScalarExpr)
  deriving DecidableEq

/-- Modelled from the spec (section 4.5): a symbolic result is either a
scalar expression or the vertical stacking of symbolic row vectors. -/
inductive SymExpr
  | scalar (e : ScalarExpr)
  | vstack (rows : List (List ScalarExpr))
  deriving DecidableEq

/-- Modelled from the spec (section 4.5): the symbolic sum realizing one
output entry, built from the layer's addition and indexing primitives at
the same flat indices as the dense path. -/
def symSum (dims sys : List ℕ) (r c : ℕ) : ScalarExpr :=
  ((List.range (tracedDims dims sys).prod).map fun t =>
      ScalarExpr.index
        (flatten dims
          (interleave sys dims.length 0 (unflatten (tracedDims dims sys) t)
            (unflatten (keptDims dims sys) r)))
        (flatten dims
          (interleave sys dims.length 0 (unflatten (tracedDims dims sys) t)
            (unflatten (keptDims dims sys) c)))).foldr ScalarExpr.add ScalarExpr.zero

/-- Modelled from the spec (section 4.5): assemble the `m` symbolic row
vectors into a single symbolic expression via vertical stacking. -/
def symbolicPT (dims sys : List ℕ) : SymExpr :=
  SymExpr.vstack ((List.range (keptDims dims sys).prod).map fun r =>
    (List.range (keptDims dims sys).prod).map fun c => symSum dims sys r c)

/-- Modelled from the spec (section 3): the operand is either a concrete
numeric matrix or a symbolic affine matrix variable of shape `n × n`. -/
inductive Operand
  | dense (rows : List (List ℤ))
  | symbolic (n : ℕ)
  deriving DecidableEq

/-- Modelled from the spec (sections 3 and 4.6): validate that the operand
is square and return its side; a symbolic variable is square by
construction. -/
def sideOf : Operand → Except PTError ℕ
  | .dense rows =>
    if rows.all fun row => row.length == rows.length then .ok rows.length
    else .error .shapeError
  | .symbolic n => .ok n

/-- Modelled from the spec (sections 3 and 4.6): the reduced operand
carries the same scalar kind as the input. -/
inductive PTResult
  | dense (rows : List (List ℤ))
  | symbolic (e : SymExpr)
  deriving DecidableEq

/-- Modelled from the spec (section 4.6 and the design notes): the public
entry point; validate squareness, normalize `dims` (absent means two equal
subsystems), normalize `sys` (absent means the last subsystem index), then
dispatch on the operand kind. -/
def partial_trace (op : Operand) (sysArg : Option SysArg) (dimsArg : DimsArg) :
    Except PTError PTResult :=
  match sideOf op with
  | .error e => .error e
  | .ok n =>
    match normalizeDims n dimsArg with
    | .error e => .error e
    | .ok dims =>
      match (match sysArg with
             | none => Except.ok [dims.length - 1]
             | some a => normalizeSys dims.length a) with
      | .error e => .error e
      | .ok sys =>
        match op with
        | .dense rows => .ok (.dense (densePT rows dims sys))
        | .symbolic _ => .ok (.symbolic (symbolicPT dims sys))

/-- The row-major `n × n` matrix with entries `1 .. n^2`, the operand used
throughout the regression oracle. -/
def arange (n : ℕ) : List (List ℤ) :=
  (List.range n).map fun i => (List.range n).map fun j => ((n * i + j + 1 : ℕ) : ℤ)

/-- Recognizer for the host optimization layer: the result is a
first-class symbolic affine expression built by vertical stacking. -/
def recognizedVstack : Except PTError PTResult → Bool
  | .ok (.symbolic (.vstack _)) => true
  | _ => false

instance : DecidableEq (Except PTError PTResult) := fun a b =>
  match a, b with
  | .ok x, .ok y =>
    if h : x = y then isTrue (by rw [h]) else isFalse fun hh => h (Except.ok.inj hh)
  | .error x, .error y =>
    if h : x = y then isTrue (by rw [h]) else isFalse fun hh => h (Except.error.inj hh)
  | .ok _, .error _ => isFalse fun hh => Except.noConfusion hh
  | .error _, .ok _ => isFalse fun hh => Except.noConfusion hh

theorem unflatten_length (dims : List ℕ) : ∀ p, (unflatten dims p).length = dims.length := by
  induction dims with
  | nil => intro p; rfl
  | cons d ds ih => intro p; simp [unflatten, ih]

theorem flatten_unflatten (dims : List ℕ) :
    ∀ p, p < dims.prod → flatten dims (unflatten dims p) = p := by
  induction dims with
  | nil =>
    intro p hp
    simp only [List.prod_nil, Nat.lt_one_iff] at hp
    simp [unflatten, flatten, hp]
  | cons d ds ih =>
    intro p hp
    have hds : 0 < ds.prod := by
      rcases Nat.eq_zero_or_pos ds.prod with h | h
      · rw [List.prod_cons, h, Nat.mul_zero] at hp; omega
      · exact h
    simp only [unflatten, flatten]
    rw [ih (p % ds.prod) (Nat.mod_lt _ hds)]
    exact Nat.div_add_mod' p ds.prod

theorem interleave_mem (sys : List ℕ) :
    ∀ (k i : ℕ) (ts rs : List ℕ), ts.length = k →
      (∀ j, i ≤ j → j < i + k → j ∈ sys) → interleave sys k i ts rs = ts := by
  intro k
  induction k with
  | zero =>
    intro i ts rs hlen _
    cases ts with
    | nil => rfl
    | cons t ts => simp at hlen
  | succ k ih =>
    intro i ts rs hlen hmem
    cases ts with
    | nil => simp at hlen
    | cons t ts =>
      have h0 : i ∈ sys := hmem i le_rfl (by omega)
      simp only [interleave, if_pos h0, List.headD_cons, List.tail_cons]
      rw [ih (i + 1) ts rs (by simpa using hlen) fun j h1 h2 => hmem j (by omega) (by omega)]

theorem interleave_not_mem (sys : List ℕ) :
    ∀ (k i : ℕ) (ts rs : List ℕ), rs.length = k →
      (∀ j, i ≤ j → j < i + k → j ∉ sys) → interleave sys k i ts rs = rs := by
  intro k
  induction k with
  | zero =>
    intro i ts rs hlen _
    cases rs with
    | nil => rfl
    | cons r rs => simp at hlen
  | succ k ih =>
    intro i ts rs hlen hmem
    cases rs with
    | nil => simp at hlen
    | cons r rs =>
      have h0 : i ∉ sys := hmem i le_rfl (by omega)
      simp only [interleave, if_neg h0, List.headD_cons, List.tail_cons]
      rw [ih (i + 1) ts rs (by simpa using hlen) fun j h1 h2 => hmem j (by omega) (by omega)]

theorem keptDimsFrom_mem (sys : List ℕ) :
    ∀ (ds : List ℕ) (i : ℕ), (∀ j, i ≤ j → j < i + ds.length → j ∈ sys) →
      keptDimsFrom sys i ds = [] := by
  intro ds
  induction ds with
  | nil => intro i _; rfl
  | cons d ds ih =>
    intro i hmem
    have h0 : i ∈ sys := hmem i le_rfl (by simp)
    simp only [keptDimsFrom, if_pos h0]
    exact ih (i + 1) fun j h1 h2 => hmem j (by omega) (by simp only [List.length_cons]; omega)

theorem tracedDimsFrom_mem (sys : List ℕ) :
    ∀ (ds : List ℕ) (i : ℕ), (∀ j, i ≤ j → j < i + ds.length → j ∈ sys) →
      tracedDimsFrom sys i ds = ds := by
  intro ds
  induction ds with
  | nil => intro i _; rfl
  | cons d ds ih =>
    intro i hmem
    have h0 : i ∈ sys := hmem i le_rfl (by simp)
    simp only [tracedDimsFrom, if_pos h0]
    rw [ih (i + 1) fun j h1 h2 => hmem j (by omega) (by simp only [List.length_cons]; omega)]

theorem keptDimsFrom_not_mem (sys : List ℕ) :
    ∀ (ds : List ℕ) (i : ℕ), (∀ j, i ≤ j → j ∉ sys) → keptDimsFrom sys i ds = ds := by
  intro ds
  induction ds with
  | nil => intro i _; rfl
  | cons d ds ih =>
    intro i hmem
    have h0 : i ∉ sys := hmem i le_rfl
    simp only [keptDimsFrom, if_neg h0]
    rw [ih (i + 1) fun j h1 => hmem j (by omega)]

theorem tracedDimsFrom_not_mem (sys : List ℕ) :
    ∀ (ds : List ℕ) (i : ℕ), (∀ j, i ≤ j → j ∉ sys) → tracedDimsFrom sys i ds = [] := by
  intro ds
  induction ds with
  | nil => intro i _; rfl
  | cons d ds ih =>
    intro i hmem
    have h0 : i ∉ sys := hmem i le_rfl
    simp only [tracedDimsFrom, if_neg h0]
    exact ih (i + 1) fun j h1 => hmem j (by omega)

theorem keptDims_sys0 (d0 : ℕ) (ds : List ℕ) : keptDims (d0 :: ds) [0] = ds := by
  have h := keptDimsFrom_not_mem [0] ds 1 fun j hj => by simp; omega
  simp [keptDims, keptDimsFrom, h]

theorem tracedDims_sys0 (d0 : ℕ) (ds : List ℕ) : tracedDims (d0 :: ds) [0] = [d0] := by
  have h := tracedDimsFrom_not_mem [0] ds 1 fun j hj => by simp; omega
  simp [tracedDims, tracedDimsFrom, h]

theorem keptDims_sys01 (d0 d1 : ℕ) (ds : List ℕ) :
    keptDims (d0 :: d1 :: ds) [0, 1] = ds := by
  have h := keptDimsFrom_not_mem [0, 1] ds 2 fun j hj => by simp; omega
  simp [keptDims, keptDimsFrom, h]

theorem tracedDims_sys01 (d0 d1 : ℕ) (ds : List ℕ) :
    tracedDims (d0 :: d1 :: ds) [0, 1] = [d0, d1] := by
  have h := tracedDimsFrom_not_mem [0, 1] ds 2 fun j hj => by simp; omega
  simp [tracedDims, tracedDimsFrom, h]

theorem keptDims_empty (dims : List ℕ) : keptDims dims [] = dims :=
  keptDimsFrom_not_mem _ dims 0 fun j _ => List.not_mem_nil j

theorem tracedDims_empty (dims : List ℕ) : tracedDims dims [] = [] :=
  tracedDimsFrom_not_mem _ dims 0 fun j _ => List.not_mem_nil j

theorem keptDims_range (dims : List ℕ) : keptDims dims (List.range dims.length) = [] :=
  keptDimsFrom_mem _ dims 0 fun j _ hj => List.mem_range.mpr (by omega)

theorem tracedDims_range (dims : List ℕ) : tracedDims dims (List.range dims.length) = dims :=
  tracedDimsFrom_mem _ dims 0 fun j _ hj => List.mem_range.mpr (by omega)

theorem unflatten_single (d p : ℕ) : unflatten [d] p = [p] := by
  simp [unflatten]

theorem unflatten_pair (a b p : ℕ) : unflatten [a, b] p = [p / b, p % b] := by
  simp [unflatten]

/-- Evaluation of `ptEntry` when the first subsystem alone is traced
out: the traced digit is the most significant one, so the inner flat
indices step through the matrix in strides of the retained product. -/
theorem ptEntry_sys0 (X : ℕ → ℕ → ℤ) (d0 : ℕ) (ds : List ℕ) (r c : ℕ)
    (hr : r < ds.prod) (hc : c < ds.prod) :
    ptEntry X (d0 :: ds) [0] r c
      = ∑ t ∈ Finset.range d0, X (t * ds.prod + r) (t * ds.prod + c) := by
  unfold ptEntry
  rw [tracedDims_sys0, keptDims_sys0]
  simp only [List.prod_cons, List.prod_nil, Nat.mul_one]
  apply Finset.sum_congr rfl
  intro t ht
  have hkey : ∀ p : ℕ, p < ds.prod →
      flatten (d0 :: ds) (interleave [0] (d0 :: ds).length 0 (unflatten [d0] t)
        (unflatten ds p)) = t * ds.prod + p := by
    intro p hp
    rw [unflatten_single]
    have hi : interleave [0] (d0 :: ds).length 0 [t] (unflatten ds p)
        = t :: unflatten ds p := by
      have h := interleave_not_mem [0] ds.length 1 [] (unflatten ds p)
        (unflatten_length ds p) fun j hj _ => by simp; omega
      simp [interleave, h]
    rw [hi]
    simp only [flatten]
    rw [flatten_unflatten ds p hp]
  rw [hkey r hr, hkey c hc]

/-- Evaluation of `ptEntry` when the first two subsystems are traced out
together: the traced assignment `v` splits into the two most significant
digits and contributes a stride of `v` times the retained product. -/
theorem ptEntry_sys01 (X : ℕ → ℕ → ℤ) (d0 d1 : ℕ) (ds : List ℕ) (r c : ℕ)
    (hr : r < ds.prod) (hc : c < ds.prod) :
    ptEntry X (d0 :: d1 :: ds) [0, 1] r c
      = ∑ v ∈ Finset.range (d0 * d1), X (v * ds.prod + r) (v * ds.prod + c) := by
  unfold ptEntry
  rw [tracedDims_sys01, keptDims_sys01]
  simp only [List.prod_cons, List.prod_nil, Nat.mul_one]
  apply Finset.sum_congr rfl
  intro v hv
  have hkey : ∀ p : ℕ, p < ds.prod →
      flatten (d0 :: d1 :: ds) (interleave [0, 1] (d0 :: d1 :: ds).length 0
        (unflatten [d0, d1] v) (unflatten ds p)) = v * ds.prod + p := by
    intro p hp
    rw [unflatten_pair]
    have hi : interleave [0, 1] (d0 :: d1 :: ds).length 0 [v / d1, v % d1]
        (unflatten ds p) = v / d1 :: v % d1 :: unflatten ds p := by
      have h := interleave_not_mem [0, 1] ds.length 2 [] (unflatten ds p)
        (unflatten_length ds p) fun j hj _ => by simp; omega
      simp [interleave, h]
    rw [hi]
    simp only [flatten, List.prod_cons]
    rw [flatten_unflatten ds p hp]
    have : v / d1 * (d1 * ds.prod) + (v % d1 * ds.prod + p)
        = (v / d1 * d1 + v % d1) * ds.prod + p := by ring
    rw [this, Nat.div_add_mod' v d1]
  rw [hkey r hr, hkey c hc]

/-- Evaluation of `ptEntry` when every subsystem is traced out: the single
output entry is the ordinary trace. -/
theorem ptEntry_range (X : ℕ → ℕ → ℤ) (dims : List ℕ) :
    ptEntry X dims (List.range dims.length) 0 0
      = ∑ t ∈ Finset.range dims.prod, X t t := by
  unfold ptEntry
  rw [tracedDims_range, keptDims_range]
  apply Finset.sum_congr rfl
  intro t ht
  rw [interleave_mem _ dims.length 0 (unflatten dims t) (unflatten [] 0)
    (unflatten_length dims t) fun j _ hj => List.mem_range.mpr (by omega)]
  rw [flatten_unflatten dims t (List.mem_range.mp ht)]

/-- Evaluation of `ptEntry` when no subsystem is traced out: the identity
map on entries. -/
theorem ptEntry_emptySys (X : ℕ → ℕ → ℤ) (dims : List ℕ) (r c : ℕ)
    (hr : r < dims.prod) (hc : c < dims.prod) :
    ptEntry X dims [] r c = X r c := by
  unfold ptEntry
  rw [tracedDims_empty, keptDims_empty]
  simp only [List.prod_nil]
  rw [Finset.sum_range_one]
  rw [interleave_not_mem _ dims.length 0 (unflatten [] 0) (unflatten dims r)
        (unflatten_length dims r) fun j _ _ => List.not_mem_nil j,
      interleave_not_mem _ dims.length 0 (unflatten [] 0) (unflatten dims c)
        (unflatten_length dims c) fun j _ _ => List.not_mem_nil j,
      flatten_unflatten dims r hr, flatten_unflatten dims c hc]

/-- Splitting a sum over `range (a * b)` into a double sum over the two
mixed-radix digits. -/
theorem sum_range_mul_split (f : ℕ → ℤ) (a b : ℕ) :
    ∑ v ∈ Finset.range (a * b), f v
      = ∑ t ∈ Finset.range a, ∑ u ∈ Finset.range b, f (t * b + u) := by
  induction a with
  | zero => simp
  | succ a ih =>
    rw [Nat.succ_mul, Finset.sum_range_add, ih, Finset.sum_range_succ]

/-- Reading every position of a list back in order rebuilds the list. -/
theorem map_getD_range {α : Type} (l : List α) (d : α) :
    (List.range l.length).map (fun i => l.getD i d) = l := by
  induction l with
  | nil => rfl
  | cons a l ih =>
    rw [List.length_cons, List.range_succ_eq_map, List.map_cons, List.map_map]
    have h : ((fun i => (a :: l).getD i d) ∘ Nat.succ) = fun i => l.getD i d := by
      funext i
      simp [List.getD_cons_succ]
    rw [List.getD_cons_zero, h, ih]

/-- Reading an in-range position of a mapped range list. -/
theorem getD_map_range {α : Type} (n : ℕ) (f : ℕ → α) (d : α) (i : ℕ) (hi : i < n) :
    ((List.range n).map f).getD i d = f i := by
  have hlen : i < ((List.range n).map f).length := by simpa using hi
  rw [List.getD_eq_getElem _ _ hlen, List.getElem_map, List.getElem_range]

/-- An entry of the dense partial-trace output, read inside its `m × m`
bounds, is the corresponding `ptEntry` value. -/
theorem entryOf_densePT (rows : List (List ℤ)) (dims sys : List ℕ) (i j : ℕ)
    (hi : i < (keptDims dims sys).prod) (hj : j < (keptDims dims sys).prod) :
    entryOf (densePT rows dims sys) i j = ptEntry (entryOf rows) dims sys i j := by
  show ((densePT rows dims sys).getD i []).getD j 0 = ptEntry (entryOf rows) dims sys i j
  unfold densePT
  rw [getD_map_range _ _ _ _ hi, getD_map_range _ _ _ _ hj]

/-- Two dense partial traces agree when their retained products agree and
their entries agree inside the bounds. -/
theorem densePT_congr (rows1 rows2 : List (List ℤ)) (dims1 sys1 dims2 sys2 : List ℕ)
    (hm : (keptDims dims1 sys1).prod = (keptDims dims2 sys2).prod)
    (h : ∀ r, r < (keptDims dims2 sys2).prod → ∀ c, c < (keptDims dims2 sys2).prod →
      ptEntry (entryOf rows1) dims1 sys1 r c = ptEntry (entryOf rows2) dims2 sys2 r c) :
    densePT rows1 dims1 sys1 = densePT rows2 dims2 sys2 := by
  unfold densePT
  rw [hm]
  apply List.map_congr_left
  intro r hr
  apply List.map_congr_left
  intro c hc
  rw [List.mem_range] at hr hc
  exact h r hr c hc

/-- C3: tracing out subsystem 0 and then, with the induced smaller
dimension vector, the subsystem that was originally subsystem 1, equals
tracing out subsystems 0 and 1 directly, for every operand and every
composite dimension vector of length at least two. -/
theorem partial_trace_assoc_01 (rows : List (List ℤ)) (d0 d1 : ℕ) (ds : List ℕ) :
    densePT (densePT rows (d0 :: d1 :: ds) [0]) (d1 :: ds) [0]
      = densePT rows (d0 :: d1 :: ds) [0, 1] := by
  have hkept : keptDims (d0 :: d1 :: ds) [0] = d1 :: ds := keptDims_sys0 d0 (d1 :: ds)
  apply densePT_congr
  · rw [keptDims_sys0 d1 ds, keptDims_sys01 d0 d1 ds]
  · intro r hr c hc
    rw [keptDims_sys01 d0 d1 ds] at hr hc
    rw [ptEntry_sys0 _ d1 ds r c hr hc, ptEntry_sys01 _ d0 d1 ds r c hr hc]
    have hstep : ∀ u ∈ Finset.range d1,
        entryOf (densePT rows (d0 :: d1 :: ds) [0]) (u * ds.prod + r) (u * ds.prod + c)
          = ∑ t ∈ Finset.range d0,
              entryOf rows (t * (d1 * ds.prod) + (u * ds.prod + r))
                (t * (d1 * ds.prod) + (u * ds.prod + c)) := by
      intro u hu
      rw [Finset.mem_range] at hu
      have hur : u * ds.prod + r < (d1 :: ds).prod := by
        rw [List.prod_cons]
        calc u * ds.prod + r < u * ds.prod + ds.prod := by omega
          _ = (u + 1) * ds.prod := by ring
          _ ≤ d1 * ds.prod := Nat.mul_le_mul_right _ (by omega)
      have huc : u * ds.prod + c < (d1 :: ds).prod := by
        rw [List.prod_cons]
        calc u * ds.prod + c < u * ds.prod + ds.prod := by omega
          _ = (u + 1) * ds.prod := by ring
          _ ≤ d1 * ds.prod := Nat.mul_le_mul_right _ (by omega)
      rw [entryOf_densePT rows (d0 :: d1 :: ds) [0] _ _ (by rw [hkept]; exact hur)
        (by rw [hkept]; exact huc)]
      rw [ptEntry_sys0 (entryOf rows) d0 (d1 :: ds) _ _ hur huc]
      simp only [List.prod_cons]
    rw [Finset.sum_congr rfl hstep]
    rw [sum_range_mul_split (fun v => entryOf rows (v * ds.prod + r) (v * ds.prod + c)) d0 d1]
    rw [Finset.sum_comm]
    apply Finset.sum_congr rfl
    intro u hu
    apply Finset.sum_congr rfl
    intro t ht
    have harg : (u * d1 + t) * ds.prod = u * (d1 * ds.prod) + t * ds.prod := by ring
    rw [harg, Nat.add_assoc, Nat.add_assoc]

/-- The square check of the entry point succeeds on a square matrix. -/
theorem sideOf_dense_ok (rows : List (List ℤ))
    (hsq : ∀ row ∈ rows, row.length = rows.length) :
    sideOf (.dense rows) = .ok rows.length := by
  have hall : (rows.all fun row => row.length == rows.length) = true :=
    List.all_eq_true.mpr fun row hrow => by rw [hsq row hrow]; exact beq_self_eq_true _
  simp [sideOf, hall]

/-- Reduction of the public entry point on a square dense operand once
both normalizations succeed. -/
theorem partial_trace_dense_ok (rows : List (List ℤ)) (sysArg : Option SysArg)
    (dimsArg : DimsArg) (dims sys : List ℕ)
    (hsq : ∀ row ∈ rows, row.length = rows.length)
    (hdims : normalizeDims rows.length dimsArg = .ok dims)
    (hsys : (match sysArg with
             | none => Except.ok [dims.length - 1]
             | some a => normalizeSys dims.length a) = .ok sys) :
    partial_trace (.dense rows) sysArg dimsArg = .ok (.dense (densePT rows dims sys)) := by
  simp only [partial_trace, sideOf_dense_ok rows hsq, hdims, hsys]

/-- Normalizing the explicit full subsystem list `[0, …, k-1]` yields
`range k`. -/
theorem normalizeSys_range (k : ℕ) :
    normalizeSys k (.list ((List.range k).map Int.ofNat)) = .ok (List.range k) := by
  have hall : (((List.range k).map Int.ofNat).all fun e =>
      decide (0 ≤ e ∧ e < (k : ℤ))) = true := by
    rw [List.all_eq_true]
    intro e he
    rw [List.mem_map] at he
    obtain ⟨j, hj, rfl⟩ := he
    rw [List.mem_range] at hj
    simp
    omega
  simp only [normalizeSys, hall, if_true, List.map_map]
  have hcomp : (Int.toNat ∘ Int.ofNat) = id := by
    funext x
    simp
  rw [hcomp, List.map_id, List.dedup_eq_self.mpr (List.nodup_range k)]

/-- C4: for every square operand and every valid dimension vector, tracing
out every subsystem yields the 1 × 1 matrix holding the ordinary trace. -/
theorem partial_trace_full_reduction (rows : List (List ℤ)) (dims : List ℕ)
    (hsq : ∀ row ∈ rows, row.length = rows.length)
    (hprod : dims.prod = rows.length) :
    partial_trace (.dense rows)
        (some (.list ((List.range dims.length).map Int.ofNat))) (.explicit dims)
      = .ok (.dense [[∑ i ∈ Finset.range rows.length, entryOf rows i i]]) := by
  have hdims : normalizeDims rows.length (.explicit dims) = .ok dims := by
    simp [normalizeDims, hprod]
  rw [partial_trace_dense_ok rows _ _ dims (List.range dims.length) hsq hdims
    (normalizeSys_range dims.length)]
  have hmat : densePT rows dims (List.range dims.length)
      = [[∑ i ∈ Finset.range rows.length, entryOf rows i i]] := by
    unfold densePT
    rw [keptDims_range]
    have hr1 : List.range ([] : List ℕ).prod = [0] := rfl
    simp only [hr1, List.map_cons, List.map_nil]
    rw [ptEntry_range, hprod]
  rw [hmat]

/-- Witness for C4 at the concrete 2 × 2 operand with entries 1..4 and
dimension vector `[2]`. -/
theorem partial_trace_full_reduction_witness :
    partial_trace (.dense (arange 2))
        (some (.list ((List.range ([2] : List ℕ).length).map Int.ofNat))) (.explicit [2])
      = .ok (.dense [[∑ i ∈ Finset.range (arange 2).length, entryOf (arange 2) i i]]) :=
  partial_trace_full_reduction (arange 2) [2] (by decide) (by decide)

/-- C6: for every composite operand and the empty subsystem set, the
partial trace is the identity map, returning a freshly constructed matrix
whose entries equal the input's. -/
theorem partial_trace_empty_sys (rows : List (List ℤ)) (dims : List ℕ)
    (hsq : ∀ row ∈ rows, row.length = rows.length)
    (hprod : dims.prod = rows.length) :
    partial_trace (.dense rows) (some (.list [])) (.explicit dims)
      = .ok (.dense rows) := by
  have hdims : normalizeDims rows.length (.explicit dims) = .ok dims := by
    simp [normalizeDims, hprod]
  rw [partial_trace_dense_ok rows _ _ dims [] hsq hdims rfl]
  have key : densePT rows dims [] = rows := by
    unfold densePT
    rw [keptDims_empty, hprod]
    have hinner : ∀ r ∈ List.range rows.length,
        ((List.range rows.length).map fun c => ptEntry (entryOf rows) dims [] r c)
          = rows.getD r [] := by
      intro r hr
      rw [List.mem_range] at hr
      have hrlen : (rows.getD r []).length = rows.length := by
        rw [List.getD_eq_getElem _ _ hr]
        exact hsq _ (List.getElem_mem hr)
      have hentry : ∀ c ∈ List.range rows.length,
          ptEntry (entryOf rows) dims [] r c = (rows.getD r []).getD c 0 := by
        intro c hc
        rw [List.mem_range] at hc
        rw [ptEntry_emptySys _ dims r c (by omega) (by omega)]
        rfl
      rw [List.map_congr_left hentry]
      calc ((List.range rows.length).map fun c => (rows.getD r []).getD c 0)
          = ((List.range (rows.getD r []).length).map fun c => (rows.getD r []).getD c 0) := by
            rw [hrlen]
        _ = rows.getD r [] := map_getD_range _ _
    rw [List.map_congr_left hinner]
    exact map_getD_range rows []
  rw [key]

/-- Witness for C6 at the concrete 3 × 3 operand with entries 1..9 and
dimension vector `[3]`. -/
theorem partial_trace_empty_sys_witness :
    partial_trace (.dense (arange 3)) (some (.list [])) (.explicit [3])
      = .ok (.dense (arange 3)) :=
  partial_trace_empty_sys (arange 3) [3] (by decide) (by decide)

/-- C5: for every 4 × 4 numeric operand, the absent `sys` argument
defaults to the last subsystem and the absent `dims` argument defaults to
two equal subsystems inferred from the operand size. -/
theorem partial_trace_defaults (rows : List (List ℤ)) (h4 : rows.length = 4)
    (hsq : ∀ row ∈ rows, row.length = 4) :
    (partial_trace (.dense rows) none .absent
        = partial_trace (.dense rows) (some (.list [1])) (.explicit [2, 2]))
      ∧ partial_trace (.dense rows) (some (.list [0])) .absent
        = partial_trace (.dense rows) (some (.list [0])) (.explicit [2, 2]) := by
  have hsq2 : ∀ row ∈ rows, row.length = rows.length := fun row hrow => by
    rw [h4]
    exact hsq row hrow
  have hdimsA : normalizeDims rows.length .absent = .ok [2, 2] := by
    rw [h4]
    rfl
  have hdimsE : normalizeDims rows.length (.explicit [2, 2]) = .ok [2, 2] := by
    rw [h4]
    rfl
  constructor
  · rw [partial_trace_dense_ok rows none .absent [2, 2] [1] hsq2 hdimsA rfl,
        partial_trace_dense_ok rows _ _ [2, 2] [1] hsq2 hdimsE rfl]
  · rw [partial_trace_dense_ok rows _ .absent [2, 2] [0] hsq2 hdimsA rfl,
        partial_trace_dense_ok rows _ _ [2, 2] [0] hsq2 hdimsE rfl]

/-- Witness for C5 at the concrete 4 × 4 operand with entries 1..16. -/
theorem partial_trace_defaults_witness :
    (partial_trace (.dense (arange 4)) none .absent
        = partial_trace (.dense (arange 4)) (some (.list [1])) (.explicit [2, 2]))
      ∧ partial_trace (.dense (arange 4)) (some (.list [0])) .absent
        = partial_trace (.dense (arange 4)) (some (.list [0])) (.explicit [2, 2]) :=
  partial_trace_defaults (arange 4) (by decide) (by decide)

/-- C7: a `sys` value that is neither an integer nor a collection of
integers, or one holding an index outside `[0, k)`, is rejected with the
`InvalidArgument` error kind, never silently coerced. -/
theorem partial_trace_invalid_sys (rows : List (List ℤ)) (dimsArg : DimsArg)
    (dims : List ℕ)
    (hsq : ∀ row ∈ rows, row.length = rows.length)
    (hdims : normalizeDims rows.length dimsArg = .ok dims)
    (l : List ℤ) (e : ℤ) (hel : e ∈ l) (he : e < 0 ∨ (dims.length : ℤ) ≤ e) :
    partial_trace (.dense rows) (some .other) dimsArg = .error .invalidArgument
      ∧ partial_trace (.dense rows) (some (.list l)) dimsArg
        = .error .invalidArgument := by
  constructor
  · have hother : normalizeSys dims.length SysArg.other = .error .invalidArgument := rfl
    simp only [partial_trace, sideOf_dense_ok rows hsq, hdims, hother]
  · have hfail : normalizeSys dims.length (.list l) = .error .invalidArgument := by
      have hdx : ¬ (0 ≤ e ∧ e < (dims.length : ℤ)) := by omega
      have hall : (l.all fun x => decide (0 ≤ x ∧ x < (dims.length : ℤ))) = false :=
        List.all_eq_false.mpr ⟨e, hel, by simpa using hdx⟩
      simp only [normalizeSys]
      rw [hall]
      rfl
    simp only [partial_trace, sideOf_dense_ok rows hsq, hdims, hfail]

/-- Witness for C7 at the concrete 4 × 4 operand with entries 1..16,
default dimensions, and the out-of-range subsystem list `[5]`. -/
theorem partial_trace_invalid_sys_witness :
    partial_trace (.dense (arange 4)) (some .other) .absent = .error .invalidArgument
      ∧ partial_trace (.dense (arange 4)) (some (.list [5])) .absent
        = .error .invalidArgument :=
  partial_trace_invalid_sys (arange 4) .absent [2, 2] (by decide) rfl [5] 5
    (by decide) (by decide)

/-- C8: a non-square operand is rejected with the `ShapeError` kind before
any dimension or subsystem work, whatever the `sys` and `dims` arguments
are; no result is produced. -/
theorem partial_trace_non_square (rows : List (List ℤ)) (row : List ℤ)
    (hrow : row ∈ rows) (hne : row.length ≠ rows.length)
    (sysArg : Option SysArg) (dimsArg : DimsArg) :
    partial_trace (.dense rows) sysArg dimsArg = .error .shapeError := by
  have hall : (rows.all fun r => r.length == rows.length) = false := by
    rw [List.all_eq_false]
    exact ⟨row, hrow, by simpa using hne⟩
  have hside : sideOf (.dense rows) = .error .shapeError := by
    simp [sideOf, hall]
  simp only [partial_trace, hside]

/-- Witness for C8 at the 3 × 4 operand of the regression suite. -/
theorem partial_trace_non_square_witness :
    partial_trace (.dense [[1, 2, 3, 4], [5, 6, 7, 8], [9, 10, 11, 12]])
        (some (.list [1])) (.explicit [2]) = .error .shapeError :=
  partial_trace_non_square [[1, 2, 3, 4], [5, 6, 7, 8], [9, 10, 11, 12]]
    [1, 2, 3, 4] (by decide) (by decide) (some (.list [1])) (.explicit [2])

set_option maxHeartbeats 1600000 in
/-- C1: the 6 × 6 oracle with mixed radices `[2, 3]`: tracing out
subsystem 0 yields the 3 × 3 stride matrix, tracing out subsystem 1 the
2 × 2 diagonal-block sums, and tracing out both the full trace 111. -/
theorem partial_trace_6_by_6_oracle :
    partial_trace (.dense (arange 6)) (some (.list [0])) (.explicit [2, 3])
        = .ok (.dense [[23, 25, 27], [35, 37, 39], [47, 49, 51]])
      ∧ partial_trace (.dense (arange 6)) (some (.list [1])) (.explicit [2, 3])
        = .ok (.dense [[24, 33], [78, 87]])
      ∧ partial_trace (.dense (arange 6)) (some (.list [0, 1])) (.explicit [2, 3])
        = .ok (.dense [[111]]) := by
  decide

set_option maxHeartbeats 1600000 in
/-- C2: the 16 × 16 oracle with four qubit subsystems: tracing out
subsystems 0 and 1 yields the asserted 4 × 4 matrix. -/
theorem partial_trace_16_by_16_oracle :
    partial_trace (.dense (arange 16)) (some (.list [0, 1])) (.explicit [2, 2, 2, 2])
      = .ok (.dense [[412, 416, 420, 424], [476, 480, 484, 488],
          [540, 544, 548, 552], [604, 608, 612, 616]]) := by
  decide

set_option maxHeartbeats 1600000 in
/-- C9: on a 4 × 4 symbolic affine matrix variable with default
arguments, the operator returns a first-class symbolic affine expression
built by vertical stacking, not a concrete numeric array. -/
theorem partial_trace_symbolic_vstack :
    recognizedVstack (partial_trace (.symbolic 4) none .absent) = true := by
  decide

set_option maxHeartbeats 1600000 in
/-- C10: merging adjacent subsystems that are traced out together, or
retained together, into one subsystem of the product dimension does not
change the result on the 16 × 16 oracle. -/
theorem partial_trace_merge_adjacent :
    partial_trace (.dense (arange 16)) (some (.list [2, 3])) (.explicit [2, 2, 2, 2])
        = partial_trace (.dense (arange 16)) (some (.list [2])) (.explicit [2, 2, 4])
      ∧ partial_trace (.dense (arange 16)) (some (.list [0, 1])) (.explicit [2, 2, 2, 2])
        = partial_trace (.dense (arange 16)) (some (.list [0])) (.explicit [4, 2, 2]) := by
  decide
